import Mathlib

/-
Verification of the STL reader (RWStl_Reader.cxx) against its specification.

The reader decodes text or binary STL byte streams into a deduplicated
node/triangle stream delivered to an external mesh sink.  The embedding
below follows the source file closely; collaborators that live outside the
provided sources (the line buffer, the hashed data map, the numeric parser
and the sink interface) are modelled from the specification, as indicated
in their doc comments.  Machine doubles are embedded as exact rationals.
The progress scope is not modelled: no claim under verification exercises
cancellation, so aPS.More() is taken to be true throughout.
-/

namespace RWStl

attribute [local semireducible] Rat.add Rat.mul Rat.sub Rat.inv

/-- Three coordinates modelling gp_XYZ (the source stores doubles; the
embedding uses exact rationals). -/
structure Pnt where
  x : ℚ
  y : ℚ
  z : ℚ
deriving DecidableEq

/-- Squared modulus of the difference of two points, as in
(thePnt1 - thePnt2).SquareModulus(). -/
def sqDist (p q : Pnt) : ℚ :=
  (p.x - q.x) ^ 2 + (p.y - q.y) ^ 2 + (p.z - q.z) ^ 2

/-- Precision::SquareConfusion(), the square of the 1e-7 confusion tolerance. -/
def squareConfusion : ℚ := 1 / 10 ^ 14

/-- MergeNodeTool::IsEqual: two points are the same node when their squared
distance is below the confusion tolerance. -/
def isEqualPnt (p q : Pnt) : Bool := decide (sqDist p q < squareConfusion)

/-- Modelled from the spec: the external mesh sink behind the pure virtual
AddNode/AddTriangle interface of RWStl_Reader.  Node registration returns a
monotonically assigned integer handle and logs the registered point;
triangle registration logs the index triple. -/
structure Sink where
  nextIndex : Nat
  nodes : List Pnt
  triangles : List (Nat × Nat × Nat)
deriving DecidableEq

/-- Node registration call of the sink: returns a fresh index. -/
def Sink.addNode (s : Sink) (p : Pnt) : Nat × Sink :=
  (s.nextIndex,
   { s with nextIndex := s.nextIndex + 1, nodes := s.nodes ++ [p] })

/-- Triangle registration call of the sink. -/
def Sink.addTriangle (s : Sink) (n1 n2 n3 : Nat) : Sink :=
  { s with triangles := s.triangles ++ [(n1, n2, n3)] }

/-- MergeNodeTool state: the bindings of the point-to-index map, in binding
order.  The source stores them in an NCollection_DataMap keyed by
MergeNodeTool::IsEqual; the lookup is modelled from the spec as finding a
previously bound point equal within tolerance (the hash-bucket selection of
the map is an implementation detail required to be consistent with that
equality). -/
structure MergeTool where
  map : List (Pnt × Nat)
deriving DecidableEq

/-- MergeNodeTool::AddNode: use the existing node if one is found at the same
point, otherwise obtain a fresh index from the sink and bind it. -/
def MergeTool.addNode (t : MergeTool) (s : Sink) (p : Pnt) :
    Nat × MergeTool × Sink :=
  match t.map.find? (fun b => isEqualPnt b.1 p) with
  | some b => (b.2, t, s)
  | none =>
    let r := s.addNode p
    (r.1, ⟨t.map ++ [(p, r.1)]⟩, r.2)

/-- Resolution of the three vertices of one facet through MergeNodeTool. -/
def resolve3 (t : MergeTool) (s : Sink) (v1 v2 v3 : Pnt) :
    (Nat × Nat × Nat) × MergeTool × Sink :=
  let r1 := t.addNode s v1
  let r2 := r1.2.1.addNode r1.2.2 v2
  let r3 := r2.2.1.addNode r2.2.2 v3
  ((r1.1, r2.1, r3.1), r3.2)

/-- One facet as processed by ReadAscii (lines 403-409) and ReadBinary
(lines 490-496): resolve the three vertices, then register the triangle
only when the three resolved indices are pairwise distinct. -/
def addFacet (t : MergeTool) (s : Sink) (v1 v2 v3 : Pnt) :
    MergeTool × Sink :=
  let r := resolve3 t s v1 v2 v3
  let n1 := r.1.1
  let n2 := r.1.2.1
  let n3 := r.1.2.2
  if n1 ≠ n2 ∧ n2 ≠ n3 ∧ n3 ≠ n1 then
    (r.2.1, r.2.2.addTriangle n1 n2 n3)
  else
    (r.2.1, r.2.2)

/-- The facet pipeline of one block: fold addFacet over the decoded facets. -/
def processFacets (t : MergeTool) (s : Sink) :
    List (Pnt × Pnt × Pnt) → MergeTool × Sink
  | [] => (t, s)
  | f :: fs =>
    let r := addFacet t s f.1 f.2.1 f.2.2
    processFacets r.1 r.2 fs

/-- The failure messages sent to the logging collaborator
(Message::SendFail). -/
inductive Msg where
  | prematureEndOfFile
  | unexpectedFacet (line : Nat)
  | cannotReadVertex (line : Nat)
  | corruptedBinary
  | binaryReadFailed
  | cannotReadFile
deriving DecidableEq

/-! Byte-level utilities for the text grammar. -/

/-- One line of the text stream, as bytes (without the newline). -/
abbrev Line := List Nat

/-- C isspace on a byte. -/
def isSpaceB (b : Nat) : Bool := b = 32 || (9 ≤ b && b ≤ 13)

/-- C isalpha on a byte. -/
def isAlphaB (b : Nat) : Bool := (65 ≤ b && b ≤ 90) || (97 ≤ b && b ≤ 122)

/-- C isdigit on a byte. -/
def isDigitB (b : Nat) : Bool := 48 ≤ b && b ≤ 57

/-- Lower-case folding of a byte. -/
def lowerB (b : Nat) : Nat := if 65 ≤ b ∧ b ≤ 90 then b + 32 else b

/-- Value of a digit string. -/
def digitsVal (ds : List Nat) : Nat :=
  ds.foldl (fun a d => 10 * a + (d - 48)) 0

/-- strncasecmp equality on the first word bytes; a line shorter than the
word (the terminating NUL in the source) never matches a keyword byte. -/
def matchesCI : Line → List Nat → Bool
  | _, [] => true
  | [], _ :: _ => false
  | b :: bs, w :: ws => lowerB b = lowerB w && matchesCI bs ws

/-- str_starts_with: skip leading whitespace, then compare the keyword
case-insensitively. -/
def startsWithCI (l : Line) (w : List Nat) : Bool :=
  matchesCI (l.dropWhile isSpaceB) w

/-- Bytes of the keyword facet. -/
def kwFacet : List Nat := [102, 97, 99, 101, 116]

/-- Bytes of the keyword outer. -/
def kwOuter : List Nat := [111, 117, 116, 101, 114]

/-- Bytes of the keyword endsolid. -/
def kwEndsolid : List Nat := [101, 110, 100, 115, 111, 108, 105, 100]

/-- Modelled from the spec: the locale-independent decimal number parser
behind Strtod (Standard_CString, outside the provided sources), restricted
to plain sign-digits-point-digits notation.  Returns the value, the
unconsumed rest and whether a conversion happened; as with strtod, when no
conversion is performed the rest is the whole input. -/
def strtodLite (bs : List Nat) : ℚ × List Nat × Bool :=
  let s1 := bs.dropWhile isSpaceB
  let neg : Bool := s1.head? = some 45
  let s2 := if s1.head? = some 45 ∨ s1.head? = some 43 then s1.tail else s1
  let ip := s2.takeWhile isDigitB
  let s3 := s2.dropWhile isDigitB
  let hasDot : Bool := s3.head? = some 46
  let s4 := if hasDot then s3.tail else s3
  let fp := if hasDot then s4.takeWhile isDigitB else []
  let s5 := if hasDot then s4.dropWhile isDigitB else s4
  if ip = [] ∧ fp = [] then (0, bs, false)
  else
    let mag : ℚ := (digitsVal ip : ℚ) + (digitsVal fp : ℚ) / (10 ^ fp.length : ℚ)
    (if neg then -mag else mag, s5, true)

/-- ReadVertex: skip the leading keyword (whitespace and alphabetic bytes),
parse three numbers, and succeed iff the third conversion consumed
characters (aEnd != aStr in the source). -/
def readVertexLine (l : Line) : Option Pnt :=
  let s0 := l.dropWhile (fun b => isSpaceB b || isAlphaB b)
  let r1 := strtodLite s0
  let r2 := strtodLite r1.2.1
  let r3 := strtodLite r2.2.1
  if r3.2.2 then some ⟨r1.1, r2.1, r3.1⟩ else none

/-- Modelled from the spec: the reusable line buffer
(Standard_ReadLineBuffer, outside the provided sources) splits the byte
stream into lines at newline bytes; a trailing newline does not produce an
extra empty line. -/
def linesOf (bs : List Nat) : List Line :=
  bs.foldr
    (fun b acc =>
      if b = 10 then [] :: acc
      else
        match acc with
        | [] => [[b]]
        | l :: ls => (b :: l) :: ls)
    []

/-- Serialization of lines back into a byte stream, each line followed by a
newline byte. -/
def joinln : List Line → List Nat
  | [] => []
  | l :: rest => l ++ 10 :: joinln rest

/-! The text block parser (RWStl_Reader::ReadAscii). -/

/-- Result of one ReadAscii call: the returned boolean, whether a line read
hit the end of the data (which leaves the stream eof flag set), the
unconsumed lines, the sink and the messages sent so far.  The merge tool is
local to the block and discarded, as in the source. -/
structure AsciiRes where
  ok : Bool
  eofHit : Bool
  rest : List Line
  sink : Sink
  msgs : List Msg
deriving DecidableEq

/-- Outcome of one iteration of the ReadAscii while loop. -/
inductive AStep where
  | stop (r : AsciiRes)
  | next (rest : List Line) (t : MergeTool) (s : Sink) (m : List Msg) (nb : Nat)

/-- One iteration of the ReadAscii while loop (lines 342-415): read the
facet line (stopping at endsolid or end of data), the outer loop line,
three vertex lines (end of data there is a clean stop), register the facet,
and skip the endloop and endfacet lines without checking them.  nb is the
running line counter aNbLine. -/
def readAsciiStep (ls : List Line) (t : MergeTool) (s : Sink) (m : List Msg)
    (nb : Nat) : AStep :=
  match ls with
  | [] => .stop ⟨false, true, [], s, m ++ [.prematureEndOfFile]⟩
  | l1 :: r1 =>
    if startsWithCI l1 kwEndsolid then .stop ⟨true, false, r1, s, m⟩
    else if !startsWithCI l1 kwFacet then
      .stop ⟨false, false, r1, s, m ++ [.unexpectedFacet (nb + 1)]⟩
    else
      match r1 with
      | [] => .stop ⟨false, true, [], s, m ++ [.unexpectedFacet (nb + 1)]⟩
      | l2 :: r2 =>
        if !startsWithCI l2 kwOuter then
          .stop ⟨false, false, r2, s, m ++ [.unexpectedFacet (nb + 1)]⟩
        else
          match r2 with
          | [] => .stop ⟨true, true, [], s, m⟩
          | v1 :: r3 =>
            match readVertexLine v1 with
            | none => .stop ⟨false, false, r3, s, m ++ [.cannotReadVertex nb]⟩
            | some p1 =>
              match r3 with
              | [] => .stop ⟨true, true, [], s, m⟩
              | v2 :: r4 =>
                match readVertexLine v2 with
                | none => .stop ⟨false, false, r4, s, m ++ [.cannotReadVertex nb]⟩
                | some p2 =>
                  match r4 with
                  | [] => .stop ⟨true, true, [], s, m⟩
                  | v3 :: r5 =>
                    match readVertexLine v3 with
                    | none =>
                      .stop ⟨false, false, r5, s, m ++ [.cannotReadVertex nb]⟩
                    | some p3 =>
                      let r := addFacet t s p1 p2 p3
                      .next (r5.drop 2) r.1 r.2 m (nb + 7)

/-- A continuing iteration consumes at least five lines and never emits a
message. -/
theorem readAsciiStep_next_spec {ls : List Line} {t s m nb rest t2 s2 m2 nb2}
    (h : readAsciiStep ls t s m nb = .next rest t2 s2 m2 nb2) :
    rest.length < ls.length ∧ m2 = m := by
  unfold readAsciiStep at h
  repeat (any_goals (split at h))
  all_goals cases h
  all_goals
    exact ⟨by simp only [List.length_drop, List.length_cons]; omega, rfl⟩

/-- Fueled form of the ReadAscii while loop; the fuel only serves
structural recursion and is irrelevant once it exceeds the number of
lines. -/
def readAsciiLoopF : Nat → List Line → MergeTool → Sink → List Msg → Nat →
    AsciiRes
  | 0, _, _, s, m, _ => ⟨false, false, [], s, m⟩
  | fuel + 1, ls, t, s, m, nb =>
    match readAsciiStep ls t s m nb with
    | .stop r => r
    | .next rest t2 s2 m2 nb2 => readAsciiLoopF fuel rest t2 s2 m2 nb2

/-- Fuel irrelevance for the ReadAscii loop. -/
theorem readAsciiLoopF_congr :
    ∀ f1 f2 ls t s m nb, ls.length < f1 → ls.length < f2 →
      readAsciiLoopF f1 ls t s m nb = readAsciiLoopF f2 ls t s m nb := by
  intro f1
  induction f1 with
  | zero => intro f2 ls t s m nb h1 _; omega
  | succ f ih =>
    intro f2 ls t s m nb h1 h2
    match f2 with
    | 0 => omega
    | f2 + 1 =>
      simp only [readAsciiLoopF]
      match hs : readAsciiStep ls t s m nb with
      | .stop r => rfl
      | .next rest t2 s2 m2 nb2 =>
        have hl := (readAsciiStep_next_spec hs).1
        exact ih f2 rest t2 s2 m2 nb2 (by omega) (by omega)

/-- The ReadAscii while loop. -/
def readAsciiLoop (ls : List Line) (t : MergeTool) (s : Sink) (m : List Msg)
    (nb : Nat) : AsciiRes :=
  readAsciiLoopF (ls.length + 1) ls t s m nb

/-- Unfolding of the loop on a stopping iteration. -/
theorem readAsciiLoop_stop {ls : List Line} {t s m nb r}
    (h : readAsciiStep ls t s m nb = .stop r) :
    readAsciiLoop ls t s m nb = r := by
  unfold readAsciiLoop readAsciiLoopF
  rw [h]

/-- Unfolding of the loop on a continuing iteration. -/
theorem readAsciiLoop_next {ls : List Line} {t s m nb rest t2 s2 m2 nb2}
    (h : readAsciiStep ls t s m nb = .next rest t2 s2 m2 nb2) :
    readAsciiLoop ls t s m nb = readAsciiLoop rest t2 s2 m2 nb2 := by
  unfold readAsciiLoop
  conv_lhs => rw [readAsciiLoopF]
  rw [h]
  exact readAsciiLoopF_congr _ _ _ _ _ _ _
    (by have := (readAsciiStep_next_spec h).1; omega) (by omega)

/-- RWStl_Reader::ReadAscii: skip the header line (end of data there is the
premature end of file failure), then run the facet loop with a fresh merge
tool and the line counter starting at 1. -/
def readAscii (ls : List Line) (s : Sink) (m : List Msg) : AsciiRes :=
  match ls with
  | [] => ⟨false, true, [], s, m ++ [.prematureEndOfFile]⟩
  | _ :: rest => readAsciiLoop rest ⟨[]⟩ s m 1

/-- Whitespace stripped from the front of a line. -/
def stripWs (l : Line) : Line := l.dropWhile isSpaceB

/-- Modelled from the spec: the stream-level whitespace skip of the Read
loop, at line granularity: drop whitespace-only lines, strip leading
whitespace of the first remaining line; the flag reports whether the end of
the data was reached (which sets the stream eof flag). -/
def skipWsLines : List Line → List Line × Bool
  | [] => ([], true)
  | l :: ls =>
    if stripWs l = [] then skipWsLines ls else (stripWs l :: ls, false)

/-- Result of the whole Read call. -/
structure ReadRes where
  ok : Bool
  sink : Sink
  msgs : List Msg
deriving DecidableEq

/-- Fueled form of the Read while loop in text mode.  One iteration runs
ReadAscii; a false result breaks out of the loop with the stream fail flag
unset (the text reader never sets it; end of data only sets the eof flag),
so Read returns true.  After a successful block the whitespace skip runs:
on a stream whose eof flag is already set it sets the fail flag (the
standard sentry of the ws extractor), making Read false; otherwise it
either reaches the end of the data (eof only, Read true) or the loop
continues with the next block. -/
def readTextLoopF : Nat → List Line → Sink → List Msg → ReadRes
  | 0, _, s, m => ⟨false, s, m⟩
  | fuel + 1, ls, s, m =>
    let r := readAscii ls s m
    if !r.ok then ⟨true, r.sink, r.msgs⟩
    else if r.eofHit then ⟨false, r.sink, r.msgs⟩
    else
      let w := skipWsLines r.rest
      if w.2 then ⟨true, r.sink, r.msgs⟩
      else readTextLoopF fuel w.1 r.sink r.msgs

/-- The Read while loop in text mode. -/
def readTextLoop (ls : List Line) (s : Sink) (m : List Msg) : ReadRes :=
  readTextLoopF (ls.length + 1) ls s m

/-! The byte stream, format detection and the binary block reader. -/

/-- A seekable input byte stream with the standard eof and fail state
flags. -/
structure IStream where
  data : List Nat
  pos : Nat
  eofbit : Bool
  failbit : Bool
deriving DecidableEq

/-- std::ios goodness: no eof and no fail flag. -/
def IStream.good (st : IStream) : Bool := !st.eofbit && !st.failbit

/-- std::istream::read semantics: a failed sentry sets the fail flag and
extracts nothing; a short read extracts the remaining bytes and sets both
the eof and the fail flag. -/
def IStream.readN (st : IStream) (n : Nat) : List Nat × IStream :=
  if !st.good then ([], { st with failbit := true })
  else if n ≤ st.data.length - st.pos then
    ((st.data.drop st.pos).take n, { st with pos := st.pos + n })
  else
    (st.data.drop st.pos,
     { st with pos := st.data.length, eofbit := true, failbit := true })

/-- RWStl_Reader::IsAscii: probe the first 134 bytes, put them back, and
classify as binary only when some probed byte exceeds the tilde byte
0x7E. -/
def isAsciiProbe (st : IStream) : Bool × IStream × List Msg :=
  let r := st.readN 134
  if r.2.failbit then (true, r.2, [Msg.cannotReadFile])
  else
    let st3 : IStream := { r.2 with pos := r.2.pos - r.1.length, eofbit := false }
    if r.1.length < 134 then (true, st3, [])
    else if r.1.all (fun b => b ≤ 126) then (true, st3, [])
    else (false, st3, [])

/-- The two stream formats. -/
inductive Fmt where
  | text
  | binary
deriving DecidableEq

/-- The format decision of Read (lines 178-182): streams shorter than the
134-byte minimum binary size are assumed text without probing; otherwise
IsAscii decides.  The probe restores the stream, so the byte list alone
determines the outcome. -/
def detectFormat (bytes : List Nat) : Fmt × List Msg :=
  if bytes.length < 134 then (.text, [])
  else
    let r := isAsciiProbe ⟨bytes, 0, false, false⟩
    (if r.1 then .text else .binary, r.2.2)

/-- Byte of a list at an index, zero beyond the end. -/
def byteAt (bs : List Nat) (i : Nat) : Nat := bs.getD i 0

/-- Little-endian 32-bit word from four bytes. -/
def leWord (b0 b1 b2 b3 : Nat) : Nat :=
  b0 + 256 * b1 + 65536 * b2 + 16777216 * b3

/-- Little-endian 32-bit word of a list at an offset. -/
def wordAt (bs : List Nat) (off : Nat) : Nat :=
  leWord (byteAt bs off) (byteAt bs (off + 1)) (byteAt bs (off + 2))
    (byteAt bs (off + 3))

/-- readStlFloat: a little-endian IEEE-754 binary32 word decoded into an
exact rational.  Exponent 255 (infinities and NaNs, which no modelled claim
exercises) is mapped to a sentinel magnitude outside the finite range. -/
def decodeFloat32 (w : Nat) : ℚ :=
  let sign : ℚ := if w / 2 ^ 31 % 2 = 1 then -1 else 1
  let e : Nat := w / 2 ^ 23 % 256
  let f : ℚ := ((w % 2 ^ 23 : ℕ) : ℚ)
  if e = 0 then sign * f / 2 ^ 149
  else if e = 255 then sign * 2 ^ 200
  else sign * ((2 ^ 23 + f) * 2 ^ e) / 2 ^ 150

/-- readStlFloatVec3 at an offset of a byte buffer. -/
def vec3At (bs : List Nat) (off : Nat) : Pnt :=
  ⟨decodeFloat32 (wordAt bs off), decodeFloat32 (wordAt bs (off + 4)),
   decodeFloat32 (wordAt bs (off + 8))⟩

/-- The three vertices of each of the k facets of a chunk buffer: each
50-byte record holds the skipped normal at offset 0 and the vertices at
offsets 12, 24 and 36. -/
def chunkFacets (bs : List Nat) (k : Nat) : List (Pnt × Pnt × Pnt) :=
  (List.range k).map fun i =>
    (vec3At bs (50 * i + 12), vec3At bs (50 * i + 24), vec3At bs (50 * i + 36))

/-- Result of one ReadBinary call. -/
structure BinRes where
  ok : Bool
  st : IStream
  sink : Sink
  msgs : List Msg
deriving DecidableEq

/-- Fueled form of the facet loop of ReadBinary (lines 467-497): read
chunks of at most 80 facets of 50 bytes; a short chunk read is the binary
read failure; otherwise decode and register every facet of the chunk.  The
fuel only serves structural recursion; remaining is the number of facets
still to read. -/
def readBinaryFacetsF : Nat → Nat → IStream → MergeTool → Sink → List Msg →
    BinRes
  | _, 0, st, _, s, m => ⟨true, st, s, m⟩
  | 0, _ + 1, st, _, s, m => ⟨true, st, s, m⟩
  | fuel + 1, rem + 1, st, t, s, m =>
    let k := min 80 (rem + 1)
    let rd := st.readN (k * 50)
    if rd.1.length ≠ k * 50 then ⟨false, rd.2, s, m ++ [.binaryReadFailed]⟩
    else
      let p := processFacets t s (chunkFacets rd.1 k)
      readBinaryFacetsF fuel (rem + 1 - k) rd.2 p.1 p.2 m

/-- Fuel irrelevance for the binary facet loop. -/
theorem readBinaryFacetsF_congr :
    ∀ f1 f2 rem st t s m, rem ≤ f1 → rem ≤ f2 →
      readBinaryFacetsF f1 rem st t s m = readBinaryFacetsF f2 rem st t s m := by
  intro f1
  induction f1 with
  | zero =>
    intro f2 rem st t s m h1 _
    match rem, h1 with
    | 0, _ =>
      match f2 with
      | 0 => rfl
      | _ + 1 => rfl
  | succ f ih =>
    intro f2 rem st t s m h1 h2
    match rem with
    | 0 =>
      match f2 with
      | 0 => rfl
      | _ + 1 => rfl
    | rem + 1 =>
      match f2 with
      | 0 => omega
      | f2 + 1 =>
        simp only [readBinaryFacetsF]
        split
        · rfl
        · exact ih f2 _ _ _ _ _ (by omega) (by omega)

/-- The facet loop of ReadBinary. -/
def readBinaryFacets (rem : Nat) (st : IStream) (t : MergeTool) (s : Sink)
    (m : List Msg) : BinRes :=
  readBinaryFacetsF rem rem st t s m

/-- RWStl_Reader::ReadBinary: read the 84-byte header (failing on a short
read), take the 32-bit field at offset 80 as a signed count
(*(int32_t*)(aHeader + 80)), and run the facet loop with a fresh merge
tool; a negative count yields zero iterations. -/
def readBinary (st : IStream) (s : Sink) (m : List Msg) : BinRes :=
  let r := st.readN 84
  if r.1.length ≠ 84 then ⟨false, r.2, s, m ++ [.corruptedBinary]⟩
  else
    let u := wordAt r.1 80
    let n : Int := if u < 2 ^ 31 then (u : Int) else (u : Int) - 2 ^ 32
    readBinaryFacets n.toNat r.2 ⟨[]⟩ s m

/-- Modelled from the spec: the stream-level whitespace skip of the Read
loop (aStream >> std::ws).  On a stream that is not good the sentry sets
the fail flag; otherwise whitespace bytes are consumed and reaching the end
of the data sets the eof flag. -/
def wsStream (st : IStream) : IStream :=
  if !st.good then { st with failbit := true }
  else
    let p2 := st.pos + ((st.data.drop st.pos).takeWhile isSpaceB).length
    if p2 = st.data.length then { st with pos := p2, eofbit := true }
    else { st with pos := p2 }

/-- Fueled form of the Read while loop in binary mode: run ReadBinary; a
false result breaks out and Read returns the negation of the stream fail
flag; after a successful block the whitespace skip runs and the loop
continues while the stream is good. -/
def readBinaryLoopF : Nat → IStream → Sink → List Msg → ReadRes
  | 0, st, s, m => ⟨!st.failbit, s, m⟩
  | fuel + 1, st, s, m =>
    let r := readBinary st s m
    if !r.ok then ⟨!r.st.failbit, r.sink, r.msgs⟩
    else
      let st2 := wsStream r.st
      if !st2.good then ⟨!st2.failbit, r.sink, r.msgs⟩
      else readBinaryLoopF fuel st2 r.sink r.msgs

/-- The Read while loop in binary mode. -/
def readBinaryLoop (st : IStream) (s : Sink) (m : List Msg) : ReadRes :=
  readBinaryLoopF (st.data.length + 1) st s m

/-- RWStl_Reader::Read: none models a file that cannot be opened (an
immediate false); otherwise the format is detected once and the matching
block reader is driven until the stream stops being good, the final stream
fail flag being inverted into the result. -/
def Read (file : Option (List Nat)) (s : Sink) : ReadRes :=
  match file with
  | none => ⟨false, s, []⟩
  | some bytes =>
    let d := detectFormat bytes
    match d.1 with
    | .text =>
      readTextLoop (linesOf bytes) s d.2
    | .binary =>
      readBinaryLoop ⟨bytes, 0, false, false⟩ s d.2

/-! Structured text facet blocks, used to state properties of ReadAscii. -/

/-- The seven lines of one text facet block. -/
structure AFacet where
  fLine : Line
  oLine : Line
  v1 : Line
  v2 : Line
  v3 : Line
  elLine : Line
  efLine : Line

/-- The lines of a facet block in stream order. -/
def AFacet.lines (fb : AFacet) : List Line :=
  [fb.fLine, fb.oLine, fb.v1, fb.v2, fb.v3, fb.elLine, fb.efLine]

/-- Well-formedness of a facet block: the facet and outer keywords match
(and the facet line is not an endsolid line) and the three vertex lines
parse.  Nothing is required of the endloop and endfacet lines. -/
def AFacet.wf (fb : AFacet) : Prop :=
  startsWithCI fb.fLine kwEndsolid = false ∧
  startsWithCI fb.fLine kwFacet = true ∧
  startsWithCI fb.oLine kwOuter = true ∧
  (readVertexLine fb.v1).isSome = true ∧
  (readVertexLine fb.v2).isSome = true ∧
  (readVertexLine fb.v3).isSome = true

instance (fb : AFacet) : Decidable fb.wf := by
  unfold AFacet.wf
  infer_instance

/-- The parsed vertex triple of a facet block. -/
def AFacet.pts (fb : AFacet) : Pnt × Pnt × Pnt :=
  ((readVertexLine fb.v1).getD ⟨0, 0, 0⟩,
   (readVertexLine fb.v2).getD ⟨0, 0, 0⟩,
   (readVertexLine fb.v3).getD ⟨0, 0, 0⟩)

/-- One loop iteration consumes a well-formed facet block entirely,
registers its facet and checks nothing on its last two lines. -/
theorem readAsciiStep_block (fb : AFacet) (hwf : fb.wf) (tail : List Line)
    (t : MergeTool) (s : Sink) (m : List Msg) (nb : Nat) :
    readAsciiStep (fb.lines ++ tail) t s m nb =
      .next tail (addFacet t s fb.pts.1 fb.pts.2.1 fb.pts.2.2).1
        (addFacet t s fb.pts.1 fb.pts.2.1 fb.pts.2.2).2 m (nb + 7) := by
  obtain ⟨h1, h2, h3, h4, h5, h6⟩ := hwf
  rcases hp1 : readVertexLine fb.v1 with _ | p1
  · rw [hp1] at h4; cases h4
  rcases hp2 : readVertexLine fb.v2 with _ | p2
  · rw [hp2] at h5; cases h5
  rcases hp3 : readVertexLine fb.v3 with _ | p3
  · rw [hp3] at h6; cases h6
  simp [AFacet.lines, AFacet.pts, readAsciiStep, h1, h2, h3, hp1, hp2, hp3]

/-- The loop over a list of well-formed facet blocks folds addFacet over
their parsed vertices and then continues on the remaining lines. -/
theorem readAsciiLoop_blocks :
    ∀ (fs : List AFacet) (tail : List Line) (t : MergeTool) (s : Sink)
      (m : List Msg) (nb : Nat), (∀ fb ∈ fs, fb.wf) →
      readAsciiLoop ((fs.map AFacet.lines).flatten ++ tail) t s m nb =
        readAsciiLoop tail (processFacets t s (fs.map AFacet.pts)).1
          (processFacets t s (fs.map AFacet.pts)).2 m (nb + 7 * fs.length) := by
  intro fs
  induction fs with
  | nil =>
    intro tail t s m nb _
    simp [processFacets]
  | cons fb fs ih =>
    intro tail t s m nb hwf
    have hfb := hwf fb (by simp)
    have hrest : ∀ g ∈ fs, g.wf := fun g hg => hwf g (by simp [hg])
    have hstep := readAsciiStep_block fb hfb
      ((fs.map AFacet.lines).flatten ++ tail) t s m nb
    have hjoin : ((fb :: fs).map AFacet.lines).flatten ++ tail =
        fb.lines ++ ((fs.map AFacet.lines).flatten ++ tail) := by
      simp
    rw [hjoin, readAsciiLoop_next hstep, ih _ _ _ _ _ hrest]
    have : processFacets t s ((fb :: fs).map AFacet.pts) =
        processFacets (addFacet t s fb.pts.1 fb.pts.2.1 fb.pts.2.2).1
          (addFacet t s fb.pts.1 fb.pts.2.1 fb.pts.2.2).2 (fs.map AFacet.pts) := by
      simp [processFacets]
    rw [this]
    have : nb + 7 + 7 * fs.length = nb + 7 * (fs.length + 1) := by ring
    simp [this]

/-- linesOf distributes over one newline-terminated line. -/
theorem linesOf_line_append (l : Line) (rest : List Nat) (h : ¬(10 ∈ l)) :
    linesOf (l ++ 10 :: rest) = l :: linesOf rest := by
  induction l with
  | nil => simp [linesOf]
  | cons b bs ih =>
    have hb : b ≠ 10 := fun hb => h (by simp [hb])
    have hbs : ¬(10 ∈ bs) := fun hm => h (by simp [hm])
    have ihr := ih hbs
    show linesOf (b :: (bs ++ 10 :: rest)) = (b :: bs) :: linesOf rest
    have hstep : linesOf (b :: (bs ++ 10 :: rest)) =
        (if b = 10 then [] :: linesOf (bs ++ 10 :: rest)
         else
           match linesOf (bs ++ 10 :: rest) with
           | [] => [[b]]
           | l :: ls => (b :: l) :: ls) := rfl
    rw [hstep, ihr]
    simp [hb]

/-- Round trip between line lists and the byte stream. -/
theorem linesOf_joinln :
    ∀ ls : List Line, ls ≠ [] → (∀ l ∈ ls, ¬(10 ∈ l)) →
      linesOf (joinln ls) = ls := by
  intro ls
  induction ls with
  | nil => intro h; cases h rfl
  | cons l rest ih =>
    intro _ hnl
    have hl : ¬(10 ∈ l) := hnl l (by simp)
    match rest with
    | [] =>
      show linesOf (l ++ 10 :: joinln []) = [l]
      rw [linesOf_line_append l _ hl]
      rfl
    | l2 :: rest2 =>
      show linesOf (l ++ 10 :: joinln (l2 :: rest2)) = l :: l2 :: rest2
      rw [linesOf_line_append l _ hl,
        ih (by simp) (fun x hx => hnl x (by simp [hx]))]

/-- Format detection sends no message (the probe only fails on streams
shorter than the minimum binary size, which are not probed). -/
theorem detectFormat_msgs (bytes : List Nat) : (detectFormat bytes).2 = [] := by
  unfold detectFormat isAsciiProbe IStream.readN
  split
  · rfl
  · rename_i hlen
    simp only [IStream.good, not_lt] at hlen ⊢
    simp [hlen]
    split <;> simp

/-- Breaking out of the text Read loop returns true: the text reader never
sets the stream fail flag before a break. -/
theorem readTextLoop_break {ls : List Line} {s : Sink} {m : List Msg}
    (h : (readAscii ls s m).ok = false) :
    readTextLoop ls s m =
      ⟨true, (readAscii ls s m).sink, (readAscii ls s m).msgs⟩ := by
  unfold readTextLoop readTextLoopF
  simp [h]

/-! Further helper lemmas. -/

/-- Reading within the available bytes succeeds without touching the
flags. -/
theorem readN_full {st : IStream} {n : Nat} (hg : st.good = true)
    (hn : n ≤ st.data.length - st.pos) :
    st.readN n = ((st.data.drop st.pos).take n, { st with pos := st.pos + n }) := by
  unfold IStream.readN
  simp [hg, hn]

/-- Length of a full read. -/
theorem readN_full_length {st : IStream} {n : Nat}
    (hn : n ≤ st.data.length - st.pos) :
    ((st.data.drop st.pos).take n).length = n := by
  simp [List.length_take, List.length_drop]
  omega

/-- The bytes of a list with bounded entries are bounded at every index. -/
theorem byteAt_lt_of_all {bs : List Nat} (h : ∀ b ∈ bs, b < 256) :
    ∀ i, byteAt bs i < 256 := by
  induction bs with
  | nil => intro i; simp [byteAt]
  | cons b bs ih =>
    intro i
    match i with
    | 0 => simpa [byteAt] using h b (by simp)
    | i + 1 =>
      simpa [byteAt] using ih (fun x hx => h x (by simp [hx])) i

/-- A little-endian word of bounded bytes is below 2^32. -/
theorem wordAt_lt_of_all {bs : List Nat} (h : ∀ b ∈ bs, b < 256) (off : Nat) :
    wordAt bs off < 2 ^ 32 := by
  have h0 := byteAt_lt_of_all h off
  have h1 := byteAt_lt_of_all h (off + 1)
  have h2 := byteAt_lt_of_all h (off + 2)
  have h3 := byteAt_lt_of_all h (off + 3)
  unfold wordAt leWord
  omega

/-! Settled claims. -/

/-- Claim C3.  For every stream of total length at least 134 bytes whose
first 134 bytes all have unsigned values at most 0x7E, format detection
classifies the stream as text; if any byte among the first 134 exceeds
0x7E, detection classifies it as binary. -/
theorem detect_format_by_first_134_bytes (bytes : List Nat)
    (hlen : 134 ≤ bytes.length) :
    ((∀ b ∈ bytes.take 134, b ≤ 126) → (detectFormat bytes).1 = Fmt.text) ∧
    ((∃ b ∈ bytes.take 134, 126 < b) → (detectFormat bytes).1 = Fmt.binary) := by
  have hnl : ¬ bytes.length < 134 := by omega
  have hprobe : isAsciiProbe ⟨bytes, 0, false, false⟩ =
      ((bytes.take 134).all (fun b => b ≤ 126),
       ⟨bytes, 0, false, false⟩, []) := by
    have h134 : (134 : Nat) ≤
        (⟨bytes, 0, false, false⟩ : IStream).data.length -
          (⟨bytes, 0, false, false⟩ : IStream).pos := by
      simpa using hlen
    have hmin : min 134 bytes.length = 134 := min_eq_left hlen
    unfold isAsciiProbe
    rw [readN_full (by rfl) h134]
    simp [hmin]
    split
    next h => simpa using h
    next h =>
      push_neg at h
      simpa using h
  constructor
  · intro hall
    have : (bytes.take 134).all (fun b => b ≤ 126) = true := by
      rw [List.all_eq_true]
      intro b hb
      simpa using hall b hb
    unfold detectFormat
    simp [hnl, hprobe, this]
  · intro hex
    have : (bytes.take 134).all (fun b => b ≤ 126) = false := by
      obtain ⟨b, hb, hgt⟩ := hex
      rcases hA : (bytes.take 134).all (fun b => b ≤ 126) with _ | _
      · rfl
      · rw [List.all_eq_true] at hA
        have := hA b hb
        simp at this
        omega
    unfold detectFormat
    simp [hnl, hprobe, this]

set_option maxRecDepth 8000 in
/-- Witness for claim C3 at concrete streams. -/
theorem detect_format_by_first_134_bytes_witness :
    (detectFormat (List.replicate 140 101)).1 = Fmt.text ∧
    (detectFormat (65 :: List.replicate 139 200)).1 = Fmt.binary :=
  ⟨(detect_format_by_first_134_bytes _ (by decide)).1 (by decide),
   (detect_format_by_first_134_bytes _ (by decide)).2 (by decide)⟩

/-- Claim C4.  For every decoded facet, with the three vertex indices
resolved through the deduplicator: if they are pairwise distinct, exactly
one triangle registration with those indices is emitted to the sink,
otherwise none; and a continuing iteration of the text loop (the only one
that registers a facet) never emits a message, so no error is reported for
a dropped facet. -/
theorem facet_triangle_iff_pairwise_distinct :
    (∀ (t : MergeTool) (s : Sink) (v1 v2 v3 : Pnt) (nn : Nat × Nat × Nat)
       (t2 : MergeTool) (s2 : Sink), resolve3 t s v1 v2 v3 = (nn, t2, s2) →
       ((nn.1 ≠ nn.2.1 ∧ nn.2.1 ≠ nn.2.2 ∧ nn.2.2 ≠ nn.1) →
          addFacet t s v1 v2 v3 = (t2, s2.addTriangle nn.1 nn.2.1 nn.2.2)) ∧
       (¬(nn.1 ≠ nn.2.1 ∧ nn.2.1 ≠ nn.2.2 ∧ nn.2.2 ≠ nn.1) →
          addFacet t s v1 v2 v3 = (t2, s2))) ∧
    (∀ (ls : List Line) (t : MergeTool) (s : Sink) (m : List Msg) (nb : Nat)
       rest t2 s2 m2 nb2,
       readAsciiStep ls t s m nb = .next rest t2 s2 m2 nb2 → m2 = m) := by
  constructor
  · intro t s v1 v2 v3 nn t2 s2 hr
    unfold addFacet
    rw [hr]
    constructor
    · intro hd
      simp [hd]
    · intro hd
      simp [hd]
  · intro ls t s m nb rest t2 s2 m2 nb2 h
    exact (readAsciiStep_next_spec h).2

/-- Witness for claim C4 at a concrete facet. -/
theorem facet_triangle_iff_pairwise_distinct_witness :
    addFacet ⟨[]⟩ ⟨0, [], []⟩ ⟨0, 0, 0⟩ ⟨1, 0, 0⟩ ⟨0, 1, 0⟩ =
      (⟨[(⟨0, 0, 0⟩, 0), (⟨1, 0, 0⟩, 1), (⟨0, 1, 0⟩, 2)]⟩,
       Sink.addTriangle ⟨3, [⟨0, 0, 0⟩, ⟨1, 0, 0⟩, ⟨0, 1, 0⟩], []⟩ 0 1 2) :=
  ((facet_triangle_iff_pairwise_distinct.1 ⟨[]⟩ ⟨0, [], []⟩ _ _ _ (0, 1, 2)
      ⟨[(⟨0, 0, 0⟩, 0), (⟨1, 0, 0⟩, 1), (⟨0, 1, 0⟩, 2)]⟩
      ⟨3, [⟨0, 0, 0⟩, ⟨1, 0, 0⟩, ⟨0, 1, 0⟩], []⟩ (by decide)).1 (by decide))

/-- Claim C10.  The binary reader takes the 4-byte count field at offset 80
as a signed 32-bit integer: when its top bit is set the count is negative,
the facet loop runs zero times, nothing is emitted to the sink and the
block reader returns success having consumed only the 84 header bytes. -/
theorem negative_count_reads_zero_facets (bytes : List Nat) (s : Sink)
    (m : List Msg) (hlen : 84 ≤ bytes.length) (hb : ∀ b ∈ bytes, b < 256)
    (hcnt : 2 ^ 31 ≤ wordAt (bytes.take 84) 80) :
    readBinary ⟨bytes, 0, false, false⟩ s m =
      ⟨true, ⟨bytes, 84, false, false⟩, s, m⟩ := by
  have hread := @readN_full ⟨bytes, 0, false, false⟩ 84
    (by simp [IStream.good]) (by simpa using hlen)
  have htk : ((⟨bytes, 0, false, false⟩ : IStream).data.drop 0).take 84 =
      bytes.take 84 := by simp
  have hu : wordAt (bytes.take 84) 80 < 2 ^ 32 :=
    wordAt_lt_of_all (fun b hb2 => hb b (List.mem_of_mem_take hb2)) 80
  have hneg : ¬ wordAt (bytes.take 84) 80 < 2 ^ 31 := by omega
  have htn : ((wordAt (bytes.take 84) 80 : Int) - 2 ^ 32).toNat = 0 := by
    omega
  unfold readBinary
  rw [hread, htk]
  have hlen2 : (bytes.take 84).length = 84 := by
    simp [List.length_take]
    omega
  simp only [hlen2, hneg, if_neg, ite_false, ne_eq, not_true_eq_false,
    if_false]
  simp [hneg, readBinaryFacets]
  have h0 : ((wordAt (List.take 84 bytes) 80 : Int) - 4294967296).toNat = 0 := by
    omega
  rw [h0]
  rfl

set_option maxRecDepth 8000 in
/-- Witness for claim C10 at a concrete stream. -/
theorem negative_count_reads_zero_facets_witness :
    readBinary
        ⟨List.replicate 80 7 ++ [0, 0, 0, 128] ++ List.replicate 50 0, 0,
         false, false⟩ ⟨0, [], []⟩ [] =
      ⟨true,
       ⟨List.replicate 80 7 ++ [0, 0, 0, 128] ++ List.replicate 50 0, 84,
        false, false⟩, ⟨0, [], []⟩, []⟩ :=
  negative_count_reads_zero_facets _ _ _ (by decide) (by decide) (by decide)

/-- A point already bound within tolerance is returned from the cache
without any sink call. -/
theorem addNode_hit {t : MergeTool} {s : Sink} {v : Pnt}
    (h : ∃ b ∈ t.map, isEqualPnt b.1 v = true) :
    ∃ i, t.addNode s v = (i, t, s) := by
  unfold MergeTool.addNode
  rcases hf : t.map.find? (fun b => isEqualPnt b.1 v) with _ | b
  · rw [List.find?_eq_none] at hf
    obtain ⟨b, hb, he⟩ := h
    exact absurd he (by simpa using hf b hb)
  · refine ⟨b.2, ?_⟩
    rw [hf]

/-- Facets whose three vertices all hit the cache change neither the merge
map nor the registered nodes of the sink. -/
theorem processFacets_hits :
    ∀ (rest : List (Pnt × Pnt × Pnt)) (t : MergeTool) (s1 : Sink),
      (∀ f ∈ rest, (∃ b ∈ t.map, isEqualPnt b.1 f.1 = true) ∧
        (∃ b ∈ t.map, isEqualPnt b.1 f.2.1 = true) ∧
        (∃ b ∈ t.map, isEqualPnt b.1 f.2.2 = true)) →
      (processFacets t s1 rest).1 = t ∧
      (processFacets t s1 rest).2.nodes = s1.nodes ∧
      (processFacets t s1 rest).2.nextIndex = s1.nextIndex := by
  intro rest
  induction rest with
  | nil => intro t s1 _; exact ⟨rfl, rfl, rfl⟩
  | cons f fs ih =>
    intro t s1 h
    obtain ⟨h1, h2, h3⟩ := h f (by simp)
    obtain ⟨i1, e1⟩ := @addNode_hit _ s1 _ h1
    obtain ⟨i2, e2⟩ := @addNode_hit _ s1 _ h2
    obtain ⟨i3, e3⟩ := @addNode_hit _ s1 _ h3
    have hres : resolve3 t s1 f.1 f.2.1 f.2.2 = ((i1, i2, i3), t, s1) := by
      unfold resolve3
      rw [e1]
      simp only []
      rw [e2]
      simp only []
      rw [e3]
    have hfs : ∀ g ∈ fs, (∃ b ∈ t.map, isEqualPnt b.1 g.1 = true) ∧
        (∃ b ∈ t.map, isEqualPnt b.1 g.2.1 = true) ∧
        (∃ b ∈ t.map, isEqualPnt b.1 g.2.2 = true) :=
      fun g hg => h g (by simp [hg])
    have haf2 : addFacet t s1 f.1 f.2.1 f.2.2 = (t, s1) ∨
        addFacet t s1 f.1 f.2.1 f.2.2 = (t, s1.addTriangle i1 i2 i3) := by
      unfold addFacet
      rw [hres]
      by_cases hd : (i1 ≠ i2 ∧ i2 ≠ i3 ∧ i3 ≠ i1)
      · right
        simp [hd]
      · left
        simp [hd]
    rcases haf2 with haf | haf
    · have hstep : processFacets t s1 (f :: fs) = processFacets t s1 fs := by
        simp [processFacets, haf]
      rw [hstep]
      exact ih t s1 hfs
    · have hstep : processFacets t s1 (f :: fs) =
          processFacets t (s1.addTriangle i1 i2 i3) fs := by
        simp [processFacets, haf]
      rw [hstep]
      obtain ⟨ha, hb, hc⟩ := ih t (s1.addTriangle i1 i2 i3) hfs
      exact ⟨ha, hb, hc⟩

/-- Claim C2.  Decoding any number of facets that reuse three pairwise
distinct coordinate values, each repeat lying within the confusion
tolerance of the stored original, causes exactly three node registrations
at the sink, regardless of the number of facets. -/
theorem dedup_three_nodes_regardless_of_repeats
    (p1 p2 p3 : Pnt) (rest : List (Pnt × Pnt × Pnt)) (s : Sink)
    (h12 : isEqualPnt p1 p2 = false) (h13 : isEqualPnt p1 p3 = false)
    (h23 : isEqualPnt p2 p3 = false)
    (hrest : ∀ f ∈ rest, isEqualPnt p1 f.1 = true ∧
      isEqualPnt p2 f.2.1 = true ∧ isEqualPnt p3 f.2.2 = true) :
    (processFacets ⟨[]⟩ s ((p1, p2, p3) :: rest)).2.nodes =
      s.nodes ++ [p1, p2, p3] := by
  have hf1 : addFacet ⟨[]⟩ s p1 p2 p3 =
      (⟨[(p1, s.nextIndex), (p2, s.nextIndex + 1), (p3, s.nextIndex + 1 + 1)]⟩,
       ⟨s.nextIndex + 1 + 1 + 1, s.nodes ++ [p1, p2, p3],
        s.triangles ++ [(s.nextIndex, s.nextIndex + 1, s.nextIndex + 1 + 1)]⟩) := by
    unfold addFacet resolve3 MergeTool.addNode Sink.addNode
    simp only [List.find?, h12, h13, h23, List.find?_nil, List.nil_append,
      List.find?_cons_of_neg, List.append_assoc]
    rw [if_pos (by omega)]
    simp [Sink.addTriangle]
  have hstep : processFacets ⟨[]⟩ s ((p1, p2, p3) :: rest) =
      processFacets
        ⟨[(p1, s.nextIndex), (p2, s.nextIndex + 1), (p3, s.nextIndex + 1 + 1)]⟩
        ⟨s.nextIndex + 1 + 1 + 1, s.nodes ++ [p1, p2, p3],
         s.triangles ++ [(s.nextIndex, s.nextIndex + 1, s.nextIndex + 1 + 1)]⟩
        rest := by
    simp [processFacets, hf1]
  rw [hstep]
  have hhits := processFacets_hits rest
    ⟨[(p1, s.nextIndex), (p2, s.nextIndex + 1), (p3, s.nextIndex + 1 + 1)]⟩
    ⟨s.nextIndex + 1 + 1 + 1, s.nodes ++ [p1, p2, p3],
     s.triangles ++ [(s.nextIndex, s.nextIndex + 1, s.nextIndex + 1 + 1)]⟩
    (by
      intro f hf
      obtain ⟨ha, hb, hc⟩ := hrest f hf
      exact ⟨⟨(p1, s.nextIndex), by simp, ha⟩,
        ⟨(p2, s.nextIndex + 1), by simp, hb⟩,
        ⟨(p3, s.nextIndex + 1 + 1), by simp, hc⟩⟩)
  exact hhits.2.1

set_option maxRecDepth 8000 in
/-- Witness for claim C2: two extra facets repeating the three coordinates
(one bit-exactly, one within tolerance) still register only three nodes. -/
theorem dedup_three_nodes_regardless_of_repeats_witness :
    (processFacets ⟨[]⟩ ⟨0, [], []⟩
        [(⟨0, 0, 0⟩, ⟨1, 0, 0⟩, ⟨0, 1, 0⟩),
         (⟨0, 0, 0⟩, ⟨1, 0, 0⟩, ⟨0, 1, 0⟩),
         (⟨1 / 10 ^ 8, 0, 0⟩, ⟨1, 1 / 10 ^ 8, 0⟩, ⟨0, 1, 1 / 10 ^ 8⟩)]).2.nodes =
      [⟨0, 0, 0⟩, ⟨1, 0, 0⟩, ⟨0, 1, 0⟩] :=
  dedup_three_nodes_regardless_of_repeats ⟨0, 0, 0⟩ ⟨1, 0, 0⟩ ⟨0, 1, 0⟩
    [(⟨0, 0, 0⟩, ⟨1, 0, 0⟩, ⟨0, 1, 0⟩),
     (⟨1 / 10 ^ 8, 0, 0⟩, ⟨1, 1 / 10 ^ 8, 0⟩, ⟨0, 1, 1 / 10 ^ 8⟩)]
    ⟨0, [], []⟩ (by decide) (by decide) (by decide) (by decide)

/-- AddNode only hands out indices obtained from the sink: the result is
bounded by the sink counter, the counter is monotone, triangles are
untouched and every cached binding stays bounded. -/
theorem addNode_inv {t : MergeTool} {s : Sink} {v : Pnt} {lo i : Nat}
    {t2 : MergeTool} {s2 : Sink} (h : t.addNode s v = (i, t2, s2))
    (hlo : lo ≤ s.nextIndex)
    (hmap : ∀ b ∈ t.map, lo ≤ b.2 ∧ b.2 < s.nextIndex) :
    lo ≤ i ∧ i < s2.nextIndex ∧ s.nextIndex ≤ s2.nextIndex ∧
    s2.triangles = s.triangles ∧
    (∀ b ∈ t2.map, lo ≤ b.2 ∧ b.2 < s2.nextIndex) := by
  unfold MergeTool.addNode at h
  rcases hf : t.map.find? (fun b => isEqualPnt b.1 v) with _ | b
  · rw [hf] at h
    simp only [Sink.addNode] at h
    cases h
    refine ⟨hlo, ?_, ?_, rfl, ?_⟩
    · show s.nextIndex < s.nextIndex + 1
      omega
    · show s.nextIndex ≤ s.nextIndex + 1
      omega
    intro b hb
    rcases List.mem_append.mp hb with hb | hb
    · have := hmap b hb
      refine ⟨this.1, ?_⟩
      show b.2 < s.nextIndex + 1
      omega
    · simp at hb
      rw [hb]
      refine ⟨hlo, ?_⟩
      show s.nextIndex < s.nextIndex + 1
      omega
  · rw [hf] at h
    cases h
    have hm := hmap b (List.mem_of_find?_eq_some hf)
    exact ⟨hm.1, hm.2, le_refl _, rfl, hmap⟩

/-- The facet pipeline only appends triangles whose indices were returned
by sink registrations of the same run: every appended triple is bounded
below by the initial counter and above by the final counter. -/
theorem processFacets_inv :
    ∀ (facets : List (Pnt × Pnt × Pnt)) (t : MergeTool) (s : Sink) (lo : Nat),
      lo ≤ s.nextIndex →
      (∀ b ∈ t.map, lo ≤ b.2 ∧ b.2 < s.nextIndex) →
      ∃ ext, (processFacets t s facets).2.triangles = s.triangles ++ ext ∧
        s.nextIndex ≤ (processFacets t s facets).2.nextIndex ∧
        ∀ tri ∈ ext,
          (lo ≤ tri.1 ∧ tri.1 < (processFacets t s facets).2.nextIndex) ∧
          (lo ≤ tri.2.1 ∧ tri.2.1 < (processFacets t s facets).2.nextIndex) ∧
          (lo ≤ tri.2.2 ∧ tri.2.2 < (processFacets t s facets).2.nextIndex) := by
  intro facets
  induction facets with
  | nil =>
    intro t s lo hlo hmap
    exact ⟨[], by simp [processFacets], le_refl _, by simp⟩
  | cons f fs ih =>
    intro t s lo hlo hmap
    rcases e1 : t.addNode s f.1 with ⟨i1, r1⟩
    rcases r1 with ⟨t1, s1⟩
    have inv1 := addNode_inv e1 hlo hmap
    rcases e2 : t1.addNode s1 f.2.1 with ⟨i2, r2⟩
    rcases r2 with ⟨t2, s2⟩
    have inv2 := addNode_inv e2 (by omega) inv1.2.2.2.2
    rcases e3 : t2.addNode s2 f.2.2 with ⟨i3, r3⟩
    rcases r3 with ⟨t3, s3⟩
    have inv3 := addNode_inv e3 (by omega) inv2.2.2.2.2
    have hres : resolve3 t s f.1 f.2.1 f.2.2 = ((i1, i2, i3), t3, s3) := by
      unfold resolve3
      rw [e1]
      simp only []
      rw [e2]
      simp only []
      rw [e3]
    have htr : s3.triangles = s.triangles := by
      rw [inv3.2.2.2.1, inv2.2.2.2.1, inv1.2.2.2.1]
    have hi1 : lo ≤ i1 ∧ i1 < s3.nextIndex := by
      have := inv1.2.1
      have := inv2.2.2.1
      have := inv3.2.2.1
      exact ⟨inv1.1, by omega⟩
    have hi2 : lo ≤ i2 ∧ i2 < s3.nextIndex := by
      have := inv2.2.1
      have := inv3.2.2.1
      exact ⟨inv2.1, by omega⟩
    have hi3 : lo ≤ i3 ∧ i3 < s3.nextIndex := ⟨inv3.1, inv3.2.1⟩
    have hmono3 : s.nextIndex ≤ s3.nextIndex := by
      have := inv1.2.2.1
      have := inv2.2.2.1
      have := inv3.2.2.1
      omega
    by_cases hd : (i1 ≠ i2 ∧ i2 ≠ i3 ∧ i3 ≠ i1)
    · have haf : addFacet t s f.1 f.2.1 f.2.2 =
          (t3, s3.addTriangle i1 i2 i3) := by
        unfold addFacet
        rw [hres]
        simp [hd]
      have hstep : processFacets t s (f :: fs) =
          processFacets t3 (s3.addTriangle i1 i2 i3) fs := by
        simp [processFacets, haf]
      obtain ⟨ext2, he2, hm2, hb2⟩ :=
        ih t3 (s3.addTriangle i1 i2 i3) lo (by
          show lo ≤ s3.nextIndex
          omega)
          (by
            intro b hb
            exact inv3.2.2.2.2 b hb)
      refine ⟨(i1, i2, i3) :: ext2, ?_, ?_, ?_⟩
      · rw [hstep, he2]
        show _ = s.triangles ++ ((i1, i2, i3) :: ext2)
        rw [show (s3.addTriangle i1 i2 i3).triangles =
          s3.triangles ++ [(i1, i2, i3)] from rfl, htr]
        simp
      · rw [hstep]
        have : (s3.addTriangle i1 i2 i3).nextIndex = s3.nextIndex := rfl
        omega
      · intro tri htri
        rcases List.mem_cons.mp htri with htri | htri
        · subst htri
          rw [hstep]
          have hfin : (s3.addTriangle i1 i2 i3).nextIndex ≤
              (processFacets t3 (s3.addTriangle i1 i2 i3) fs).2.nextIndex := hm2
          have hk : (s3.addTriangle i1 i2 i3).nextIndex = s3.nextIndex := rfl
          rw [hk] at hfin
          exact ⟨⟨hi1.1, show i1 < _ by omega⟩,
            ⟨hi2.1, show i2 < _ by omega⟩, ⟨hi3.1, show i3 < _ by omega⟩⟩
        · rw [hstep]
          exact hb2 tri htri
    · have haf : addFacet t s f.1 f.2.1 f.2.2 = (t3, s3) := by
        unfold addFacet
        rw [hres]
        simp [hd]
      have hstep : processFacets t s (f :: fs) = processFacets t3 s3 fs := by
        simp [processFacets, haf]
      obtain ⟨ext2, he2, hm2, hb2⟩ :=
        ih t3 s3 lo (by omega) inv3.2.2.2.2
      refine ⟨ext2, ?_, ?_, ?_⟩
      · rw [hstep, he2, htr]
      · rw [hstep]
        omega
      · intro tri htri
        rw [hstep]
        exact hb2 tri htri

/-- Claim C9.  Every node index of a triangle emitted during one block
decode lies in the half-open interval of indices the sink returned during
that same block: the deduplicator (started empty at block begin) never
fabricates an index, it only caches indices the sink returned. -/
theorem triangle_indices_previously_registered
    (facets : List (Pnt × Pnt × Pnt)) (s : Sink) :
    ∀ tri ∈ (processFacets ⟨[]⟩ s facets).2.triangles.drop s.triangles.length,
      (s.nextIndex ≤ tri.1 ∧
        tri.1 < (processFacets ⟨[]⟩ s facets).2.nextIndex) ∧
      (s.nextIndex ≤ tri.2.1 ∧
        tri.2.1 < (processFacets ⟨[]⟩ s facets).2.nextIndex) ∧
      (s.nextIndex ≤ tri.2.2 ∧
        tri.2.2 < (processFacets ⟨[]⟩ s facets).2.nextIndex) := by
  obtain ⟨ext, he, _, hb⟩ :=
    processFacets_inv facets ⟨[]⟩ s s.nextIndex (le_refl _) (by simp)
  intro tri htri
  rw [he, List.drop_left] at htri
  exact hb tri htri

set_option maxRecDepth 8000 in
/-- Witness for claim C9 on a sink that already holds a triangle and starts
its counter at 5. -/
theorem triangle_indices_previously_registered_witness :
    (5 ≤ 5 ∧ 5 < (processFacets ⟨[]⟩ ⟨5, [], [(9, 9, 9)]⟩
        [(⟨0, 0, 0⟩, ⟨1, 0, 0⟩, ⟨0, 1, 0⟩)]).2.nextIndex) ∧
    (5 ≤ 6 ∧ 6 < (processFacets ⟨[]⟩ ⟨5, [], [(9, 9, 9)]⟩
        [(⟨0, 0, 0⟩, ⟨1, 0, 0⟩, ⟨0, 1, 0⟩)]).2.nextIndex) ∧
    (5 ≤ 7 ∧ 7 < (processFacets ⟨[]⟩ ⟨5, [], [(9, 9, 9)]⟩
        [(⟨0, 0, 0⟩, ⟨1, 0, 0⟩, ⟨0, 1, 0⟩)]).2.nextIndex) :=
  triangle_indices_previously_registered
    [(⟨0, 0, 0⟩, ⟨1, 0, 0⟩, ⟨0, 1, 0⟩)] ⟨5, [], [(9, 9, 9)]⟩
    (5, 6, 7) (by decide)

/-- A read beyond the available bytes extracts the rest and sets the eof
and fail flags. -/
theorem readN_short {st : IStream} {n : Nat} (hg : st.good = true)
    (hn : st.data.length - st.pos < n) :
    st.readN n = (st.data.drop st.pos,
      { st with pos := st.data.length, eofbit := true, failbit := true }) := by
  unfold IStream.readN
  rw [if_neg (by simp [hg]), if_neg (by omega)]

/-- When the facet data for the whole hint is available, the binary facet
loop consumes exactly 50 bytes per facet and succeeds. -/
theorem readBinaryFacetsF_success :
    ∀ fuel rem (st : IStream) (t : MergeTool) (s : Sink) (m : List Msg),
      rem ≤ fuel → st.good = true → st.pos ≤ st.data.length →
      50 * rem ≤ st.data.length - st.pos →
      (readBinaryFacetsF fuel rem st t s m).ok = true ∧
      (readBinaryFacetsF fuel rem st t s m).st.pos = st.pos + 50 * rem ∧
      (readBinaryFacetsF fuel rem st t s m).st.data = st.data ∧
      (readBinaryFacetsF fuel rem st t s m).st.eofbit = st.eofbit ∧
      (readBinaryFacetsF fuel rem st t s m).st.failbit = st.failbit := by
  intro fuel
  induction fuel with
  | zero =>
    intro rem st t s m h1 hg hp hav
    match rem with
    | 0 => simp [readBinaryFacetsF]
  | succ f ih =>
    intro rem st t s m h1 hg hp hav
    match rem with
    | 0 => simp [readBinaryFacetsF]
    | rem + 1 =>
      have hk1 : 1 ≤ min 80 (rem + 1) := by omega
      have hk2 : min 80 (rem + 1) ≤ rem + 1 := by omega
      have hkb : min 80 (rem + 1) * 50 ≤ st.data.length - st.pos := by
        have : min 80 (rem + 1) * 50 ≤ 50 * (rem + 1) := by
          have := Nat.mul_le_mul_right 50 hk2
          omega
        omega
      have hrd := readN_full hg hkb
      have hrdl := @readN_full_length st _ hkb
      show (readBinaryFacetsF (f + 1) (rem + 1) st t s m).ok = true ∧ _
      unfold readBinaryFacetsF
      simp only []
      rw [hrd]
      simp only [hrdl, ne_eq, not_true_eq_false, if_false, ite_false,
        if_neg (fun hc : _ ≠ _ => hc rfl)]
      have hres := ih (rem + 1 - min 80 (rem + 1))
        { st with pos := st.pos + min 80 (rem + 1) * 50 }
        (processFacets t s
          (chunkFacets ((st.data.drop st.pos).take (min 80 (rem + 1) * 50))
            (min 80 (rem + 1)))).1
        (processFacets t s
          (chunkFacets ((st.data.drop st.pos).take (min 80 (rem + 1) * 50))
            (min 80 (rem + 1)))).2
        m (by omega) hg (by simp; omega) (by simp; omega)
      refine ⟨hres.1, ?_, ?_, hres.2.2.2.1, hres.2.2.2.2⟩
      · rw [hres.2.1]
        simp
        omega
      · rw [hres.2.2.1]

/-- When the available bytes fall short of the hint, some chunk read comes
up short: the loop fails with the binary read failure message. -/
theorem readBinaryFacetsF_short :
    ∀ fuel rem (st : IStream) (t : MergeTool) (s : Sink) (m : List Msg),
      rem ≤ fuel → st.good = true → st.pos ≤ st.data.length →
      st.data.length - st.pos < 50 * rem →
      (readBinaryFacetsF fuel rem st t s m).ok = false ∧
      (readBinaryFacetsF fuel rem st t s m).msgs =
        m ++ [Msg.binaryReadFailed] := by
  intro fuel
  induction fuel with
  | zero =>
    intro rem st t s m h1 hg hp hav
    match rem with
    | 0 => omega
  | succ f ih =>
    intro rem st t s m h1 hg hp hav
    match rem with
    | 0 => omega
    | rem + 1 =>
      have hk1 : 1 ≤ min 80 (rem + 1) := by omega
      have hk2 : min 80 (rem + 1) ≤ rem + 1 := by omega
      by_cases hfits : min 80 (rem + 1) * 50 ≤ st.data.length - st.pos
      · have hrd := readN_full hg hfits
        have hrdl := @readN_full_length st _ hfits
        show (readBinaryFacetsF (f + 1) (rem + 1) st t s m).ok = false ∧ _
        unfold readBinaryFacetsF
        simp only []
        rw [hrd]
        simp only [hrdl, ne_eq, not_true_eq_false, if_false, ite_false,
          if_neg (fun hc : _ ≠ _ => hc rfl)]
        have hkr : min 80 (rem + 1) < rem + 1 := by
          rcases Nat.lt_or_ge (min 80 (rem + 1)) (rem + 1) with h | h
          · exact h
          · exfalso
            have : min 80 (rem + 1) = rem + 1 := by omega
            rw [this] at hfits
            omega
        refine ih (rem + 1 - min 80 (rem + 1))
          { st with pos := st.pos + min 80 (rem + 1) * 50 } _ _ m
          (by omega) hg ?_ ?_
        · simp
          omega
        · simp
          omega
      · have hrd := @readN_short st (min 80 (rem + 1) * 50) hg (by omega)
        show (readBinaryFacetsF (f + 1) (rem + 1) st t s m).ok = false ∧ _
        unfold readBinaryFacetsF
        simp only []
        rw [hrd]
        rw [if_pos (by simp [List.length_drop]; omega)]
        exact ⟨rfl, rfl⟩

/-- Claim C7.  The 32-bit little-endian facet count of a binary block is a
hint only: with enough data the loop stops exactly at the hint and
succeeds, even when more bytes than the hint requires remain; when the
data runs out first, the loop stops at the short chunk read, reporting the
binary read failure. -/
theorem binary_count_is_hint (bytes : List Nat) (s : Sink) (m : List Msg)
    (hlen : 84 ≤ bytes.length)
    (hpos : wordAt (bytes.take 84) 80 < 2 ^ 31) :
    (50 * wordAt (bytes.take 84) 80 ≤ bytes.length - 84 →
      (readBinary ⟨bytes, 0, false, false⟩ s m).ok = true ∧
      (readBinary ⟨bytes, 0, false, false⟩ s m).st.pos =
        84 + 50 * wordAt (bytes.take 84) 80) ∧
    (bytes.length - 84 < 50 * wordAt (bytes.take 84) 80 →
      (readBinary ⟨bytes, 0, false, false⟩ s m).ok = false ∧
      (readBinary ⟨bytes, 0, false, false⟩ s m).msgs =
        m ++ [Msg.binaryReadFailed]) := by
  have hread := @readN_full ⟨bytes, 0, false, false⟩ 84
    (by rfl) (by simpa using hlen)
  have hrl : ((⟨bytes, 0, false, false⟩ : IStream).data.drop 0).take 84 =
      bytes.take 84 := by simp
  have hrdl : (((⟨bytes, 0, false, false⟩ : IStream).data.drop 0).take 84).length
      = 84 := @readN_full_length ⟨bytes, 0, false, false⟩ 84
      (by simpa using hlen)
  have hint : (if wordAt (bytes.take 84) 80 < 2 ^ 31
      then (wordAt (bytes.take 84) 80 : Int)
      else (wordAt (bytes.take 84) 80 : Int) - 2 ^ 32).toNat =
      wordAt (bytes.take 84) 80 := by
    rw [if_pos hpos]
    exact Int.toNat_natCast _
  have hbody : readBinary ⟨bytes, 0, false, false⟩ s m =
      readBinaryFacetsF (wordAt (bytes.take 84) 80)
        (wordAt (bytes.take 84) 80) ⟨bytes, 84, false, false⟩ ⟨[]⟩ s m := by
    unfold readBinary
    rw [hread]
    rw [hrl] at hrdl ⊢
    simp only [hrdl, ne_eq, not_true_eq_false, if_false, ite_false,
      if_neg (fun hc : (84 : Nat) ≠ 84 => hc rfl)]
    rw [hint]
    rfl
  have hg2 : (⟨bytes, 84, false, false⟩ : IStream).good = true := rfl
  have hp2 : (⟨bytes, 84, false, false⟩ : IStream).pos ≤
      (⟨bytes, 84, false, false⟩ : IStream).data.length := by
    simpa using hlen
  constructor
  · intro hav
    rw [hbody]
    have hav2 : 50 * wordAt (bytes.take 84) 80 ≤
        (⟨bytes, 84, false, false⟩ : IStream).data.length -
          (⟨bytes, 84, false, false⟩ : IStream).pos := by
      simpa using hav
    have := readBinaryFacetsF_success (wordAt (bytes.take 84) 80)
      (wordAt (bytes.take 84) 80) ⟨bytes, 84, false, false⟩ ⟨[]⟩ s m
      (le_refl _) hg2 hp2 hav2
    exact ⟨this.1, by rw [this.2.1]⟩
  · intro hav
    rw [hbody]
    have hav2 : (⟨bytes, 84, false, false⟩ : IStream).data.length -
        (⟨bytes, 84, false, false⟩ : IStream).pos <
          50 * wordAt (bytes.take 84) 80 := by
      simpa using hav
    exact readBinaryFacetsF_short (wordAt (bytes.take 84) 80)
      (wordAt (bytes.take 84) 80) ⟨bytes, 84, false, false⟩ ⟨[]⟩ s m
      (le_refl _) hg2 hp2 hav2

set_option maxRecDepth 8000 in
/-- Witness for claim C7: a block with count 1 and exactly one facet of
data succeeds at position 134; a block with count 2 and one facet of data
fails with the binary read failure message. -/
theorem binary_count_is_hint_witness :
    ((readBinary ⟨List.replicate 80 0 ++ [1, 0, 0, 0] ++ List.replicate 50 7,
        0, false, false⟩ ⟨0, [], []⟩ []).ok = true ∧
     (readBinary ⟨List.replicate 80 0 ++ [1, 0, 0, 0] ++ List.replicate 50 7,
        0, false, false⟩ ⟨0, [], []⟩ []).st.pos = 134) ∧
    ((readBinary ⟨List.replicate 80 0 ++ [2, 0, 0, 0] ++ List.replicate 50 7,
        0, false, false⟩ ⟨0, [], []⟩ []).ok = false ∧
     (readBinary ⟨List.replicate 80 0 ++ [2, 0, 0, 0] ++ List.replicate 50 7,
        0, false, false⟩ ⟨0, [], []⟩ []).msgs = [Msg.binaryReadFailed]) :=
  ⟨(binary_count_is_hint _ ⟨0, [], []⟩ [] (by decide) (by decide)).1
      (by decide),
   (binary_count_is_hint _ ⟨0, [], []⟩ [] (by decide) (by decide)).2
      (by decide)⟩

/-! Concrete lines for witnesses and counterexamples. -/

/-- Bytes of the line solid s. -/
def lineSolid : Line := [115, 111, 108, 105, 100, 32, 115]

/-- Bytes of the line facet normal 0 0 0. -/
def lineFacet : Line :=
  [102, 97, 99, 101, 116, 32, 110, 111, 114, 109, 97, 108, 32, 48, 32, 48,
   32, 48]

/-- Bytes of the line outer loop. -/
def lineOuter : Line := [111, 117, 116, 101, 114, 32, 108, 111, 111, 112]

/-- Bytes of the line vertex 0 0 0. -/
def lineV1 : Line := [118, 101, 114, 116, 101, 120, 32, 48, 32, 48, 32, 48]

/-- Bytes of the line vertex 1 0 0. -/
def lineV2 : Line := [118, 101, 114, 116, 101, 120, 32, 49, 32, 48, 32, 48]

/-- Bytes of the line vertex 0 1 0. -/
def lineV3 : Line := [118, 101, 114, 116, 101, 120, 32, 48, 32, 49, 32, 48]

/-- Bytes of the line endloop. -/
def lineEndloop : Line := [101, 110, 100, 108, 111, 111, 112]

/-- Bytes of the line endfacet. -/
def lineEndfacet : Line := [101, 110, 100, 102, 97, 99, 101, 116]

/-- Bytes of the line endsolid. -/
def lineEndsolid : Line := [101, 110, 100, 115, 111, 108, 105, 100]

/-- Bytes of the line HELLO. -/
def lineJunk : Line := [72, 69, 76, 76, 79]

/-- A concrete well-formed facet block. -/
def facetBlock1 : AFacet :=
  ⟨lineFacet, lineOuter, lineV1, lineV2, lineV3, lineEndloop, lineEndfacet⟩

/-- Detection fixed to text determines the whole detection result. -/
theorem detectFormat_text_pair {bytes : List Nat}
    (h : (detectFormat bytes).1 = Fmt.text) :
    detectFormat bytes = (Fmt.text, []) := by
  rw [Prod.ext_iff]
  exact ⟨h, detectFormat_msgs bytes⟩

/-- Read on a text-classified stream runs the text loop on its lines. -/
theorem Read_text {bytes : List Nat} {s : Sink}
    (h : detectFormat bytes = (Fmt.text, [])) :
    Read (some bytes) s = readTextLoop (linesOf bytes) s [] := by
  unfold Read
  simp only []
  rw [h]

/-- Claim C1, counterexample.  A text stream whose second line HELLO is a
structural parse failure (the unexpected keyword is reported at line 2),
yet Read returns true: the parser result only breaks the loop, and the
stream fail flag, which alone is inverted into the result, is unset. -/
theorem read_parse_failure_returns_true_cex :
    (Read (some (joinln [lineSolid, lineJunk, lineJunk])) ⟨0, [], []⟩).ok =
      true ∧
    Msg.unexpectedFacet 2 ∈
      (Read (some (joinln [lineSolid, lineJunk, lineJunk])) ⟨0, [], []⟩).msgs := by
  constructor
  · decide
  · decide

/-- Claim C1, amended.  Read returns the negation of the final stream fail
flag rather than the conjunction of the block results: an unopened stream
yields false, but a structural parse failure reported by the text parser
leaves the fail flag unset, so Read returns true while the failure message
is emitted. -/
theorem read_true_despite_text_parse_failure :
    (∀ s : Sink, (Read none s).ok = false) ∧
    (∀ (sl bad : Line) (rest : List Line) (s : Sink),
      ¬ 10 ∈ sl → ¬ 10 ∈ bad → (∀ l ∈ rest, ¬ 10 ∈ l) →
      startsWithCI bad kwEndsolid = false →
      startsWithCI bad kwFacet = false →
      (detectFormat (joinln (sl :: bad :: rest))).1 = Fmt.text →
      (Read (some (joinln (sl :: bad :: rest))) s).ok = true ∧
      Msg.unexpectedFacet 2 ∈
        (Read (some (joinln (sl :: bad :: rest))) s).msgs) := by
  constructor
  · intro s
    rfl
  · intro sl bad rest s hsl hbad hrest hke hkf hdet
    have hlines : linesOf (joinln (sl :: bad :: rest)) = sl :: bad :: rest :=
      linesOf_joinln _ (by simp) (by
        intro l hl
        rcases List.mem_cons.mp hl with h | hl
        · rw [h]; exact hsl
        rcases List.mem_cons.mp hl with h | hl
        · rw [h]; exact hbad
        · exact hrest l hl)
    have hra : readAscii (sl :: bad :: rest) s [] =
        ⟨false, false, rest, s, [] ++ [.unexpectedFacet 2]⟩ := by
      unfold readAscii
      exact readAsciiLoop_stop (by simp [readAsciiStep, hke, hkf])
    rw [Read_text (detectFormat_text_pair hdet), hlines,
      readTextLoop_break (by rw [hra])]
    constructor
    · rfl
    · rw [hra]
      simp

/-- Witness for the amended claim C1 at concrete streams. -/
theorem read_true_despite_text_parse_failure_witness :
    (Read none ⟨0, [], []⟩).ok = false ∧
    ((Read (some (joinln [lineSolid, lineJunk, lineJunk])) ⟨0, [], []⟩).ok =
        true ∧
      Msg.unexpectedFacet 2 ∈
        (Read (some (joinln [lineSolid, lineJunk, lineJunk]))
          ⟨0, [], []⟩).msgs) :=
  ⟨read_true_despite_text_parse_failure.1 ⟨0, [], []⟩,
   read_true_despite_text_parse_failure.2 lineSolid lineJunk [lineJunk]
     ⟨0, [], []⟩ (by decide) (by decide) (by decide) (by decide) (by decide)
     (by decide)⟩

/-- Claim C5.  A text stream that ends immediately after an
endloop/endfacet pair, with no endsolid line, is read successfully: Read
returns true and the sink holds exactly the facets parsed before the end
of the stream. -/
theorem truncated_text_reads_true_and_keeps_triangles
    (sl : Line) (fs : List AFacet) (s : Sink)
    (hwf : ∀ fb ∈ fs, fb.wf)
    (hsl : ¬ 10 ∈ sl)
    (hnl : ∀ fb ∈ fs, ∀ l ∈ fb.lines, ¬ 10 ∈ l)
    (hdet : (detectFormat
      (joinln (sl :: (fs.map AFacet.lines).flatten))).1 = Fmt.text) :
    (Read (some (joinln (sl :: (fs.map AFacet.lines).flatten))) s).ok =
      true ∧
    (Read (some (joinln (sl :: (fs.map AFacet.lines).flatten))) s).sink =
      (processFacets ⟨[]⟩ s (fs.map AFacet.pts)).2 := by
  have hlines : linesOf (joinln (sl :: (fs.map AFacet.lines).flatten)) =
      sl :: (fs.map AFacet.lines).flatten :=
    linesOf_joinln _ (by simp) (by
      intro l hl
      rcases List.mem_cons.mp hl with h | hl
      · rw [h]; exact hsl
      · obtain ⟨ls, hls, hml⟩ := List.mem_flatten.mp hl
        obtain ⟨fb, hfb, rfl⟩ := List.mem_map.mp hls
        exact hnl fb hfb l hml)
  have hblocks := readAsciiLoop_blocks fs [] ⟨[]⟩ s [] 1 hwf
  rw [List.append_nil] at hblocks
  have hra : readAscii (sl :: (fs.map AFacet.lines).flatten) s [] =
      ⟨false, true, [], (processFacets ⟨[]⟩ s (fs.map AFacet.pts)).2,
       [] ++ [.prematureEndOfFile]⟩ := by
    unfold readAscii
    simp only []
    rw [hblocks]
    exact readAsciiLoop_stop (by simp [readAsciiStep])
  rw [Read_text (detectFormat_text_pair hdet), hlines,
    readTextLoop_break (by rw [hra])]
  exact ⟨rfl, by rw [hra]⟩

set_option maxRecDepth 8000 in
/-- Witness for claim C5: one facet block with no endsolid decodes to one
triangle and Read returns true. -/
theorem truncated_text_reads_true_and_keeps_triangles_witness :
    (Read (some (joinln
      (lineSolid :: ([facetBlock1].map AFacet.lines).flatten)))
      ⟨0, [], []⟩).ok = true ∧
    (Read (some (joinln
      (lineSolid :: ([facetBlock1].map AFacet.lines).flatten)))
      ⟨0, [], []⟩).sink =
      (processFacets ⟨[]⟩ ⟨0, [], []⟩ ([facetBlock1].map AFacet.pts)).2 :=
  truncated_text_reads_true_and_keeps_triangles lineSolid [facetBlock1]
    ⟨0, [], []⟩ (by decide) (by decide) (by decide) (by decide)

/-- Claim C6.  A text stream reaching its end exactly where a vertex line
was expected is a clean, well-formed stop for the text parser: ReadAscii
returns true, reports nothing, and the sink keeps exactly the facets
parsed before the truncation. -/
theorem eof_at_vertex_is_clean_stop
    (sl : Line) (fs : List AFacet) (f o : Line) (vs : List Line)
    (s : Sink) (m : List Msg)
    (hwf : ∀ fb ∈ fs, fb.wf)
    (hlen : vs.length ≤ 2)
    (hvs : ∀ v ∈ vs, (readVertexLine v).isSome = true)
    (hf1 : startsWithCI f kwEndsolid = false)
    (hf2 : startsWithCI f kwFacet = true)
    (ho : startsWithCI o kwOuter = true) :
    readAscii (sl :: ((fs.map AFacet.lines).flatten ++ f :: o :: vs)) s m =
      ⟨true, true, [], (processFacets ⟨[]⟩ s (fs.map AFacet.pts)).2, m⟩ := by
  unfold readAscii
  simp only []
  rw [readAsciiLoop_blocks fs (f :: o :: vs) ⟨[]⟩ s m 1 hwf]
  match vs, hlen, hvs with
  | [], _, _ =>
    exact readAsciiLoop_stop (by simp [readAsciiStep, hf1, hf2, ho])
  | [v1], _, hvs =>
    obtain ⟨p1, hp1⟩ := Option.isSome_iff_exists.mp (hvs v1 (by simp))
    exact readAsciiLoop_stop (by simp [readAsciiStep, hf1, hf2, ho, hp1])
  | [v1, v2], _, hvs =>
    obtain ⟨p1, hp1⟩ := Option.isSome_iff_exists.mp (hvs v1 (by simp))
    obtain ⟨p2, hp2⟩ := Option.isSome_iff_exists.mp (hvs v2 (by simp))
    exact readAsciiLoop_stop
      (by simp [readAsciiStep, hf1, hf2, ho, hp1, hp2])
  | v1 :: v2 :: v3 :: vr, hlen, _ => exact absurd hlen (by simp)

set_option maxRecDepth 8000 in
/-- Witness for claim C6: one complete facet block followed by facet,
outer loop and a single vertex line, then the end of the stream. -/
theorem eof_at_vertex_is_clean_stop_witness :
    readAscii (lineSolid :: (([facetBlock1].map AFacet.lines).flatten ++
        lineFacet :: lineOuter :: [lineV1])) ⟨0, [], []⟩ [] =
      ⟨true, true, [],
       (processFacets ⟨[]⟩ ⟨0, [], []⟩ ([facetBlock1].map AFacet.pts)).2,
       []⟩ :=
  eof_at_vertex_is_clean_stop lineSolid [facetBlock1] lineFacet lineOuter
    [lineV1] ⟨0, [], []⟩ [] (by decide) (by decide) (by decide) (by decide)
    (by decide) (by decide)

set_option maxRecDepth 8000 in
/-- Claim C8, counterexample.  A decode in which the endloop-position and
endfacet-position lines are both HELLO, matching no keyword, still
succeeds with no message and with the facet registered: those two lines
are skipped without validation, contradicting the claim that every
non-matching line is a hard failure. -/
theorem endloop_not_validated_cex :
    (readAscii [lineSolid, lineFacet, lineOuter, lineV1, lineV2, lineV3,
        lineJunk, lineJunk, lineEndsolid] ⟨0, [], []⟩ []).ok = true ∧
    (readAscii [lineSolid, lineFacet, lineOuter, lineV1, lineV2, lineV3,
        lineJunk, lineJunk, lineEndsolid] ⟨0, [], []⟩ []).msgs = [] ∧
    (readAscii [lineSolid, lineFacet, lineOuter, lineV1, lineV2, lineV3,
        lineJunk, lineJunk, lineEndsolid] ⟨0, [], []⟩ []).sink.triangles =
      [(0, 1, 2)] := by
  refine ⟨?_, ?_, ?_⟩ <;> decide

/-- Claim C8, amended.  A line not matching the expected facet or outer
keyword at its position is a hard failure with a message naming the
approximate line number, as is an unreadable vertex line; but the endloop
and endfacet lines are consumed without any check, so non-matching lines
at those two positions are silently accepted. -/
theorem only_facet_and_outer_lines_validated :
    (∀ (bad : Line) (rest : List Line) (t : MergeTool) (s : Sink)
       (m : List Msg) (nb : Nat),
      startsWithCI bad kwEndsolid = false → startsWithCI bad kwFacet = false →
      readAsciiLoop (bad :: rest) t s m nb =
        ⟨false, false, rest, s, m ++ [.unexpectedFacet (nb + 1)]⟩) ∧
    (∀ (f o : Line) (rest : List Line) (t : MergeTool) (s : Sink)
       (m : List Msg) (nb : Nat),
      startsWithCI f kwEndsolid = false → startsWithCI f kwFacet = true →
      startsWithCI o kwOuter = false →
      readAsciiLoop (f :: o :: rest) t s m nb =
        ⟨false, false, rest, s, m ++ [.unexpectedFacet (nb + 1)]⟩) ∧
    (∀ (f o v1 : Line) (rest : List Line) (t : MergeTool) (s : Sink)
       (m : List Msg) (nb : Nat),
      startsWithCI f kwEndsolid = false → startsWithCI f kwFacet = true →
      startsWithCI o kwOuter = true → readVertexLine v1 = none →
      readAsciiLoop (f :: o :: v1 :: rest) t s m nb =
        ⟨false, false, rest, s, m ++ [.cannotReadVertex nb]⟩) ∧
    (∀ (f o v1 v2 v3 x y : Line) (rest : List Line) (t : MergeTool)
       (s : Sink) (m : List Msg) (nb : Nat) (p1 p2 p3 : Pnt),
      startsWithCI f kwEndsolid = false → startsWithCI f kwFacet = true →
      startsWithCI o kwOuter = true →
      readVertexLine v1 = some p1 → readVertexLine v2 = some p2 →
      readVertexLine v3 = some p3 →
      readAsciiLoop (f :: o :: v1 :: v2 :: v3 :: x :: y :: rest) t s m nb =
        readAsciiLoop rest (addFacet t s p1 p2 p3).1
          (addFacet t s p1 p2 p3).2 m (nb + 7)) := by
  refine ⟨?_, ?_, ?_, ?_⟩
  · intro bad rest t s m nb h1 h2
    exact readAsciiLoop_stop (by simp [readAsciiStep, h1, h2])
  · intro f o rest t s m nb h1 h2 h3
    exact readAsciiLoop_stop (by simp [readAsciiStep, h1, h2, h3])
  · intro f o v1 rest t s m nb h1 h2 h3 h4
    exact readAsciiLoop_stop (by simp [readAsciiStep, h1, h2, h3, h4])
  · intro f o v1 v2 v3 x y rest t s m nb p1 p2 p3 h1 h2 h3 h4 h5 h6
    exact readAsciiLoop_next (by simp [readAsciiStep, h1, h2, h3, h4, h5, h6])

set_option maxRecDepth 8000 in
/-- Witness for the amended claim C8 at concrete lines; the skipped
endloop and endfacet positions hold the non-matching line HELLO. -/
theorem only_facet_and_outer_lines_validated_witness :
    (readAsciiLoop [lineJunk, lineOuter] ⟨[]⟩ ⟨0, [], []⟩ [] 1 =
      ⟨false, false, [lineOuter], ⟨0, [], []⟩, [.unexpectedFacet 2]⟩) ∧
    (readAsciiLoop [lineFacet, lineJunk] ⟨[]⟩ ⟨0, [], []⟩ [] 1 =
      ⟨false, false, [], ⟨0, [], []⟩, [.unexpectedFacet 2]⟩) ∧
    (readAsciiLoop [lineFacet, lineOuter, lineJunk] ⟨[]⟩ ⟨0, [], []⟩ [] 1 =
      ⟨false, false, [], ⟨0, [], []⟩, [.cannotReadVertex 1]⟩) ∧
    (readAsciiLoop [lineFacet, lineOuter, lineV1, lineV2, lineV3, lineJunk,
        lineJunk] ⟨[]⟩ ⟨0, [], []⟩ [] 1 =
      readAsciiLoop []
        (addFacet ⟨[]⟩ ⟨0, [], []⟩ ⟨0, 0, 0⟩ ⟨1, 0, 0⟩ ⟨0, 1, 0⟩).1
        (addFacet ⟨[]⟩ ⟨0, [], []⟩ ⟨0, 0, 0⟩ ⟨1, 0, 0⟩ ⟨0, 1, 0⟩).2 [] 8) :=
  ⟨only_facet_and_outer_lines_validated.1 lineJunk [lineOuter] ⟨[]⟩
      ⟨0, [], []⟩ [] 1 (by decide) (by decide),
   only_facet_and_outer_lines_validated.2.1 lineFacet lineJunk [] ⟨[]⟩
      ⟨0, [], []⟩ [] 1 (by decide) (by decide) (by decide),
   only_facet_and_outer_lines_validated.2.2.1 lineFacet lineOuter lineJunk
      [] ⟨[]⟩ ⟨0, [], []⟩ [] 1 (by decide) (by decide) (by decide)
      (by decide),
   only_facet_and_outer_lines_validated.2.2.2 lineFacet lineOuter lineV1
      lineV2 lineV3 lineJunk lineJunk [] ⟨[]⟩ ⟨0, [], []⟩ [] 1
      ⟨0, 0, 0⟩ ⟨1, 0, 0⟩ ⟨0, 1, 0⟩ (by decide) (by decide) (by decide)
      (by decide) (by decide) (by decide)⟩

end RWStl
